import Mathlib

/-!
Verification of the corpus-loading / search core of bible-go.

Strings are modelled as `List Char` (the Go code only manipulates ASCII
in every behaviour the claims touch; byte indices and char indices agree
there). Go maps are modelled as association lists; the list order stands
for the map's iteration order where the code ranges over a map.
Every definition transcribes the corresponding Go function from the
source (main.go); comments name the Go symbol.
-/

/-- Convenience: a Lean string literal as the `List Char` the model uses. -/
def str (s : String) : List Char := s.toList

/-- Go `unicode.IsSpace` restricted to the Latin-1 range (the characters
`strings.Fields` splits on): space, tab, newline, vertical tab, form feed,
carriage return, NEL and NBSP. -/
def goIsSpace (c : Char) : Bool :=
  c = ' ' || c = '\t' || c = '\n' || c = (Char.ofNat 11) || c = (Char.ofNat 12) ||
  c = '\r' || c = (Char.ofNat 0x85) || c = (Char.ofNat 0xA0)

/-- Go `strings.ToLower`, character-wise (ASCII-faithful). -/
def toLowerStr (s : List Char) : List Char := s.map Char.toLower

/-- The punctuation cutset of `cleanWord`: `.,;:!?"'()[]`. -/
def inCutset (c : Char) : Bool :=
  c = '.' || c = ',' || c = ';' || c = ':' || c = '!' || c = '?' ||
  c = '"' || c = '\'' || c = '(' || c = ')' || c = '[' || c = ']'

/-- Go `strings.Trim(s, cutset)`: drop leading and trailing characters
satisfying `f`. -/
def trimBy (f : Char → Bool) (s : List Char) : List Char :=
  ((s.dropWhile f).reverse.dropWhile f).reverse

/-- Go `cleanWord` (main.go): trim the fixed punctuation cutset. -/
def cleanWord (w : List Char) : List Char := trimBy inCutset w

/-- Go `strings.TrimSpace`. -/
def trimSpace (s : List Char) : List Char := trimBy goIsSpace s

/-- Index of the first occurrence of `pat` in `s` (Go `strings.Index`,
`none` for Go's -1). -/
def idxOf (s pat : List Char) : Option Nat :=
  match s with
  | [] => if pat = [] then some 0 else none
  | c :: rest =>
    if pat.isPrefixOf (c :: rest) then some 0 else (idxOf rest pat).map (· + 1)

/-- Go `strings.Contains`. -/
def containsStr (s pat : List Char) : Bool := (idxOf s pat).isSome

/-- Worker for `fields`, structural in a fuel that `fields` sets to the
input length (each step consumes at least one character). -/
def fieldsGo : Nat → List Char → List (List Char)
  | 0, _ => []
  | _ + 1, [] => []
  | fuel + 1, c :: rest =>
    if goIsSpace c then fieldsGo fuel rest
    else (c :: rest.takeWhile (fun x => !goIsSpace x)) ::
      fieldsGo fuel (rest.dropWhile (fun x => !goIsSpace x))

/-- Go `strings.Fields`: maximal runs of non-space characters. -/
def fields (s : List Char) : List (List Char) := fieldsGo s.length s

/-- Worker for `splitOnChar` (accumulates the current segment reversed). -/
def splitOnCharGo (sep : Char) : List Char → List Char → List (List Char)
  | acc, [] => [acc.reverse]
  | acc, c :: rest =>
    if c = sep then acc.reverse :: splitOnCharGo sep [] rest
    else splitOnCharGo sep (c :: acc) rest

/-- Go `strings.Split(s, string(sep))` for a one-character separator:
keeps empty segments. -/
def splitOnChar (sep : Char) (s : List Char) : List (List Char) :=
  splitOnCharGo sep [] s

/-- Go `strings.Join(ws, " ")`. -/
def joinSpace (ws : List (List Char)) : List Char :=
  (List.intersperse [' '] ws).flatten

/-- Decimal value of a digit run (callers check `isDigit` first). -/
def digitsToNat (ds : List Char) : Nat :=
  ds.foldl (fun a c => a * 10 + (c.toNat - 48)) 0

/-- Go `strconv.Atoi`: optional single sign, then one or more decimal
digits, nothing else; errors (here `none`) on anything else and on
overflow past the 64-bit int range. -/
def goAtoi (s : List Char) : Option Int :=
  match s with
  | [] => none
  | c :: rest =>
    let p : Bool × List Char :=
      if c = '-' then (true, rest)
      else if c = '+' then (false, rest) else (false, c :: rest)
    if p.2 = [] then none
    else if p.2.all (fun d => d.isDigit) then
      let v : Int := if p.1 then -(digitsToNat p.2 : Int) else (digitsToNat p.2 : Int)
      if v < -(2 ^ 63) ∨ (2 ^ 63 - 1 : Int) < v then none else some v
    else none

/-- Decimal rendering of a natural number, structural in a fuel that
callers set above the number of digits. -/
def natToStrGo : Nat → Nat → List Char
  | 0, _ => []
  | fuel + 1, n =>
    if n < 10 then [Char.ofNat (48 + n)]
    else natToStrGo fuel (n / 10) ++ [Char.ofNat (48 + n % 10)]

/-- Go `strconv.Itoa`. -/
def goItoa (n : Int) : List Char :=
  if n < 0 then '-' :: natToStrGo (n.natAbs + 1) n.natAbs
  else natToStrGo (n.natAbs + 1) n.natAbs

/-- The parsed source document: book name → chapter key → verse key → text
(Go type `Bible = map[string]map[string]map[string]string`; the list order
models the map's iteration order). -/
abbrev ChapterMap := List (List Char × List Char)

abbrev BookMap := List (List Char × ChapterMap)

abbrev Bible := List (List Char × BookMap)

/-- Go map read `m[k]` (first matching key). -/
def alookup {α : Type} (m : List (List Char × α)) (k : List Char) : Option α :=
  (m.find? (fun p => p.1 = k)).map (fun p => p.2)

/-- Go `sortMapKeysAsInts`: every key that `strconv.Atoi` accepts, sorted
ascending (Go `sort.Ints`; the sorted multiset is algorithm-independent, so
an insertion sort models it exactly). -/
def sortMapKeysAsInts {α : Type} (m : List (List Char × α)) : List Int :=
  List.insertionSort (· ≤ ·) (m.filterMap (fun p => goAtoi p.1))

/-- Go struct `Verse`. -/
structure Verse where
  book : List Char
  chapter : Int
  verse : Int
  text : List Char
deriving DecidableEq, Repr

/-- Zero value used for out-of-range verse reads. -/
def defaultVerse : Verse := ⟨[], 0, 0, []⟩

instance : Inhabited Verse := ⟨defaultVerse⟩

/-- The canonical 66-book order (`biblicalOrder`, main.go). -/
def biblicalOrder : List (List Char) :=
  [str "Genesis", str "Exodus", str "Leviticus", str "Numbers", str "Deuteronomy",
   str "Joshua", str "Judges", str "Ruth", str "1 Samuel", str "2 Samuel",
   str "1 Kings", str "2 Kings", str "1 Chronicles", str "2 Chronicles",
   str "Ezra", str "Nehemiah", str "Esther", str "Job", str "Psalm",
   str "Proverbs", str "Ecclesiastes", str "Song Of Solomon", str "Isaiah",
   str "Jeremiah", str "Lamentations", str "Ezekiel", str "Daniel", str "Hosea",
   str "Joel", str "Amos", str "Obadiah", str "Jonah", str "Micah", str "Nahum",
   str "Habakkuk", str "Zephaniah", str "Haggai", str "Zechariah", str "Malachi",
   str "Matthew", str "Mark", str "Luke", str "John", str "Acts", str "Romans",
   str "1 Corinthians", str "2 Corinthians", str "Galatians", str "Ephesians",
   str "Philippians", str "Colossians", str "1 Thessalonians",
   str "2 Thessalonians", str "1 Timothy", str "2 Timothy", str "Titus",
   str "Philemon", str "Hebrews", str "James", str "1 Peter", str "2 Peter",
   str "1 John", str "2 John", str "3 John", str "Jude", str "Revelation"]

/-- First loop of `NewBibleData`: canonical-list books present in the
document, in canonical order. -/
def recognizedBooks (bible : Bible) : List (List Char) :=
  biblicalOrder.filter (fun b => (alookup bible b).isSome)

/-- Second loop of `NewBibleData`: document books not marked by the first
loop, in map-iteration order (`for bookName := range bible`). -/
def unrecognizedBooks (bible : Bible) : List (List Char) :=
  (bible.map (fun p => p.1)).filter
    (fun b => !(biblicalOrder.contains b && (alookup bible b).isSome))

/-- The `bookList` field `NewBibleData` builds. -/
def bookListOf (bible : Bible) : List (List Char) :=
  recognizedBooks bible ++ unrecognizedBooks bible

/-- Innermost loop of `NewBibleData`: the verses of one chapter, in sorted
verse-key order; text is re-read under the canonical rendering of the
parsed key (`chapter[strconv.Itoa(verseNum)]`, zero value `""`). -/
def versesOfChapter (book : List Char) (c : Int) (chap : ChapterMap) : List Verse :=
  (sortMapKeysAsInts chap).map
    (fun v => ⟨book, c, v, (alookup chap (goItoa v)).getD []⟩)

/-- Middle loop of `NewBibleData`: every chapter of one book, in sorted
chapter-key order (`bible[bookName][strconv.Itoa(chapterNum)]`, zero value
an empty map). -/
def versesOfBook (book : List Char) (bm : BookMap) : List Verse :=
  (sortMapKeysAsInts bm).flatMap
    (fun c => versesOfChapter book c ((alookup bm (goItoa c)).getD []))

/-- The flat `verses` sequence `NewBibleData` builds: books in `bookList`
order. -/
def allVerses (bible : Bible) : List Verse :=
  (bookListOf bible).flatMap
    (fun b => versesOfBook b ((alookup bible b).getD []))

/-- Go `GetVerses` through the `chapterIndex` that `NewBibleData` built:
the entry for `(b, c)` accumulates one `versesOfChapter` block per
occurrence of the value `c` among the book's parsed chapter keys; an
absent book or chapter yields the empty list. -/
def GetVerses (bible : Bible) (b : List Char) (c : Int) : List Verse :=
  match alookup bible b with
  | none => []
  | some bm =>
    ((sortMapKeysAsInts bm).filter (fun x => x = c)).flatMap
      (fun _ => versesOfChapter b c ((alookup bm (goItoa c)).getD []))

/-- Tokenization used by the index build (`NewBibleData`, inner word loop):
lowercase, split on whitespace, trim punctuation, keep tokens longer than
`minWordLength = 2`. -/
def indexableTokens (text : List Char) : List (List Char) :=
  (fields (toLowerStr text)).filterMap
    (fun w => let c := cleanWord w; if 2 < c.length then some c else none)

/-- Worker for `postingOf`: the positions appended for token `tok` while
scanning verses from position `i` on (one append per occurrence). -/
def postingAux (tok : List Char) : Nat → List (List Char) → List Nat
  | _, [] => []
  | i, t :: ts =>
    (((indexableTokens t).filter (fun w => w = tok)).map (fun _ => i)) ++
      postingAux tok (i + 1) ts

/-- The posting list `bd.index[tok]` that `NewBibleData` builds over the
flat verse-text sequence (empty list = no map entry). -/
def postingOf (texts : List (List Char)) (tok : List Char) : List Nat :=
  postingAux tok 0 texts

/-- The parts of `BibleData` the search layer reads (the index and chapter
index are recomputed from these by the functions above). -/
structure BD where
  verses : List Verse
  bookList : List (List Char)

/-- Go `NewBibleData` (the fields the claims touch). -/
def mkBD (bible : Bible) : BD := ⟨allVerses bible, bookListOf bible⟩

/-- The posting list of `tok` in `bd.index`. -/
def bdIndex (bd : BD) (tok : List Char) : List Nat :=
  postingOf (bd.verses.map (fun v => v.text)) tok

/-- Go `intersect` (two-pointer merge intersection), structural in a fuel
that `intersect` sets to the summed lengths. -/
def intersectGo : Nat → List Nat → List Nat → List Nat
  | 0, _, _ => []
  | _ + 1, [], _ => []
  | _ + 1, _, [] => []
  | fuel + 1, a :: as, b :: bs =>
    if a = b then a :: intersectGo fuel as bs
    else if a < b then intersectGo fuel as (b :: bs)
    else intersectGo fuel (a :: as) bs

/-- Go `intersect`: a Go nil result is the empty list here; callers that
care about nil-ness test emptiness, which coincides (the Go slice is nil
iff nothing was appended). -/
def intersect (a b : List Nat) : List Nat := intersectGo (a.length + b.length) a b

/-- Go `noMatchScore`. -/
def noMatchScore : Nat := 1000000

/-- Word loop of `fuzzyMatchAndScore`: first word (by index) whose cleaned
form has the pattern as a prefix (score 100 + i) or contains it
(score 500 + i). -/
def fuzzyWordLoop (p : List Char) : Nat → List (List Char) → Option Nat
  | _, [] => none
  | i, w :: ws =>
    let cleaned := cleanWord w
    if p.isPrefixOf cleaned then some (100 + i)
    else if containsStr cleaned p then some (500 + i)
    else fuzzyWordLoop p (i + 1) ws

/-- Go `fuzzyMatchAndScore`. -/
def fuzzyMatchAndScore (text pat : List Char) : Bool × Nat :=
  if pat = [] then (true, noMatchScore)
  else
    let textLower := toLowerStr text
    let patternLower := toLowerStr pat
    match idxOf textLower patternLower with
    | some idx => (true, idx)
    | none =>
      match fuzzyWordLoop patternLower 0 (fields textLower) with
      | some sc => (true, sc)
      | none => (false, noMatchScore)

/-- Loop of `findBook` over the book list. -/
def findBookGo (q : List Char) : List (List Char) → List Char
  | [] => []
  | b :: bs =>
    let bl := toLowerStr b
    if bl = q || q.isPrefixOf bl then b else findBookGo q bs

/-- Go `findBook`: one pass, first book whose lowercase form equals the
lowercase query or starts with it. -/
def findBook (bookList : List (List Char)) (bookName : List Char) : List Char :=
  findBookGo (toLowerStr bookName) bookList

/-- Go `sortAndExtractVerses`: sort by ascending score, keep the verses. -/
def sortAndExtractVerses (ms : List (Verse × Nat)) : List Verse :=
  (List.insertionSort (fun a b => a.2 ≤ b.2) ms).map (fun p => p.1)

/-- Go `searchInBook`. -/
def searchInBook (bd : BD) (book term : List Char) : List Verse :=
  sortAndExtractVerses (bd.verses.filterMap
    (fun v => if v.book = book then
        (let r := fuzzyMatchAndScore v.text term
         if r.1 then some (v, r.2) else none)
      else none))

/-- Worker for `getCandidateIndices`. `none` is the Go nil slice: the
initial state, the early return on a token absent from the index, and an
empty intersection result (Go `intersect` returns nil when it appends
nothing), after which the next indexable token re-copies its posting list. -/
def getCandidateIndicesGo (bd : BD) : Option (List Nat) → List (List Char) → Option (List Nat)
  | acc, [] => acc
  | acc, w :: ws =>
    let clean := cleanWord w
    if 2 < clean.length then
      let indices := bdIndex bd clean
      if indices.isEmpty then none
      else
        match acc with
        | none => getCandidateIndicesGo bd (some indices) ws
        | some c =>
          let r := intersect c indices
          getCandidateIndicesGo bd (if r.isEmpty then none else some r) ws
    else getCandidateIndicesGo bd acc ws

/-- Go `getCandidateIndices` (tokens longer than `minSearchLength = 2`;
a map entry exists iff its posting list is nonempty). -/
def getCandidateIndices (bd : BD) (words : List (List Char)) : Option (List Nat) :=
  getCandidateIndicesGo bd none words

/-- Go `scoreAndSortCandidates`. -/
def scoreAndSortCandidates (bd : BD) (cands : List Nat) (query : List Char) : List Verse :=
  sortAndExtractVerses (cands.filterMap
    (fun i =>
      let v := bd.verses.getD i defaultVerse
      let r := fuzzyMatchAndScore v.text query
      if r.1 then some (v, r.2) else none))

/-- Go `fullTextSearch`. -/
def fullTextSearch (bd : BD) (query : List Char) : List Verse :=
  sortAndExtractVerses (bd.verses.filterMap
    (fun v =>
      let r := fuzzyMatchAndScore v.text query
      if r.1 then some (v, r.2) else none))

/-- Go `searchByReference`. -/
def searchByReference (bd : BD) (query : List Char) : List Verse :=
  let q := trimSpace query
  let parts := splitOnChar ':' q
  let bookChapter := if parts.length = 2 then trimSpace (parts.getD 0 []) else q
  let verseNum : Int :=
    if parts.length = 2 then
      match goAtoi (trimSpace (parts.getD 1 [])) with
      | some n => n
      | none => 0
    else -1
  let words := fields bookChapter
  if words = [] then []
  else
    let lastWord := words.getLastD []
    let cb : Int × List Char :=
      match goAtoi lastWord with
      | some n => if 0 < n then (n, joinSpace words.dropLast) else (-1, joinSpace words)
      | none => (-1, joinSpace words)
    if cb.2 = [] then []
    else
      let matchedBook := findBook bd.bookList cb.2
      if matchedBook = [] then []
      else
        bd.verses.filter (fun v =>
          v.book = matchedBook &&
          (if 0 < cb.1 then v.chapter = cb.1 else true) &&
          (if 0 < verseNum then v.verse = verseNum else true))

/-- Strategy 2 of `Search` as a function: empty when the query has fewer
than two tokens, when the book does not resolve, or when no verse in the
book matches — exactly the cases where `Search` falls through. -/
def bookScopedPhase (bd : BD) (query : List Char) : List Verse :=
  let parts := fields query
  if 2 ≤ parts.length then
    let bookName := joinSpace parts.dropLast
    let matchedBook := findBook bd.bookList bookName
    if matchedBook = [] then []
    else searchInBook bd matchedBook (parts.getLastD [])
  else []

/-- Strategies 3 and 4 of `Search`: indexed candidates when the candidate
slice is non-nil, otherwise the full scan. -/
def indexedPhase (bd : BD) (query : List Char) : List Verse :=
  match getCandidateIndices bd (fields (toLowerStr query)) with
  | some cands => scoreAndSortCandidates bd cands query
  | none => fullTextSearch bd query

/-- Go `Search`. -/
def Search (bd : BD) (query : List Char) : List Verse :=
  if query = [] then []
  else
    let r := searchByReference bd query
    if r ≠ [] then r
    else
      let b := bookScopedPhase bd query
      if b ≠ [] then b
      else indexedPhase bd query

/-- Modelled from the spec: the two-phase fuzzy book matching the spec
describes (case-insensitive exact match against the whole list first, and
only if no book matches exactly, a case-insensitive prefix pass), for
comparison with the source's one-pass `findBook`. -/
def findBookSpecTwoPhase (bookList : List (List Char)) (bookName : List Char) : List Char :=
  let q := toLowerStr bookName
  match bookList.find? (fun b => toLowerStr b = q) with
  | some b => b
  | none => (bookList.find? (fun b => q.isPrefixOf (toLowerStr b))).getD []

/-- Condition of the `findBook` loop on one book. -/
def bookMatches (q b : List Char) : Bool :=
  toLowerStr b = toLowerStr q || (toLowerStr q).isPrefixOf (toLowerStr b)

/-- Substring tier of `fuzzyMatchAndScore` fires (nonempty pattern whose
lowercase form occurs in the lowercase text). -/
def substringTierMatched (t p : List Char) : Bool :=
  !p.isEmpty && containsStr (toLowerStr t) (toLowerStr p)

/-- Word tier of `fuzzyMatchAndScore` fires with the substring tier not
firing: the configuration in which a verse is matched only by the
word-prefix or word-contains rule. -/
def wordTierOnlyMatched (t p : List Char) : Bool :=
  !p.isEmpty && !containsStr (toLowerStr t) (toLowerStr p) &&
    (fuzzyWordLoop (toLowerStr p) 0 (fields (toLowerStr t))).isSome

/-! ## Concrete documents used by the counterexamples and witnesses -/

/-- Corpus whose index has postings aaa → [0], ccc → [0], bbb → [1]. -/
def c1doc : Bible :=
  [(str "Genesis", [(str "1", [(str "1", str "aaa ccc"), (str "2", str "bbb")])])]

/-- Document holding the canonical book Matthew and the unrecognized book
name Mat, so its book list is [Matthew, Mat]. -/
def c2doc : Bible :=
  [(str "Matthew", [(str "1", [(str "1", str "x")])]),
   (str "Mat", [(str "1", [(str "1", str "y")])])]

/-- One-chapter body shared by the two c5 documents. -/
def c5bm : BookMap := [(str "1", [(str "1", str "x")])]

/-- Two unrecognized books, listed in one iteration order. -/
def c5doc1 : Bible := [(str "Zzza", c5bm), (str "Zzzb", c5bm)]

/-- The same two-book map as `c5doc1`, listed in the other iteration order. -/
def c5doc2 : Bible := [(str "Zzzb", c5bm), (str "Zzza", c5bm)]

/-- Document with the chapter key "-1", which `strconv.Atoi` accepts. -/
def c6doc : Bible := [(str "Genesis", [(str "-1", [(str "1", str "dark")])])]

/-- Two-verse chapter body shared by the c7 documents. -/
def c7ch : ChapterMap := [(str "1", str "a"), (str "2", str "b")]

/-- Document whose chapter keys "1" and "01" both parse to 1. -/
def c7doc : Bible := [(str "Genesis", [(str "1", c7ch), (str "01", c7ch)])]

/-- Document with canonical decimal keys only. -/
def c7cleandoc : Bible := [(str "Genesis", [(str "1", c7ch)])]

/-- Document with a verse repeating one indexable token. -/
def c8doc : Bible := [(str "Genesis", [(str "1", [(str "1", str "abc abc")])])]

/-- Corpus where verse 2 contains the query "foo bar" as a substring but
lacks the token foo, so it is missing from the candidate set. -/
def c10doc : Bible :=
  [(str "Genesis",
    [(str "1", [(str "1", str "foo bar here"), (str "2", str "xfoo bar here")])])]

/-! ## Supporting lemmas -/

theorem isPrefixOf_eq_true_iff (p m : List Char) :
    p.isPrefixOf m = true ↔ ∃ t, p ++ t = m := by
  induction p generalizing m with
  | nil => simp [List.isPrefixOf]
  | cons a as ih =>
    cases m with
    | nil => simp [List.isPrefixOf]
    | cons b bs =>
      simp only [List.isPrefixOf, Bool.and_eq_true, beq_iff_eq, ih, List.cons_append,
        List.cons.injEq]
      constructor
      · rintro ⟨rfl, t, rfl⟩; exact ⟨t, rfl, rfl⟩
      · rintro ⟨t, rfl, rfl⟩; exact ⟨rfl, t, rfl⟩

theorem containsStr_iff (s p : List Char) :
    containsStr s p = true ↔ ∃ u v, u ++ p ++ v = s := by
  induction s with
  | nil =>
    by_cases hp : p = [] <;> simp [containsStr, idxOf, hp, List.append_eq_nil]
  | cons c rest ih =>
    by_cases h : p.isPrefixOf (c :: rest) = true
    · simp only [containsStr, idxOf, h, if_true, Option.isSome_some, true_iff]
      obtain ⟨t, ht⟩ := (isPrefixOf_eq_true_iff p (c :: rest)).1 h
      exact ⟨[], t, by simpa using ht⟩
    · have hl : containsStr (c :: rest) p = containsStr rest p := by
        simp only [containsStr, idxOf, h, if_false, Bool.false_eq_true]
        cases idxOf rest p <;> simp
      rw [hl, ih]
      constructor
      · rintro ⟨u, v, rfl⟩; exact ⟨c :: u, v, rfl⟩
      · rintro ⟨u, v, huv⟩
        cases u with
        | nil =>
          exfalso
          exact h ((isPrefixOf_eq_true_iff p (c :: rest)).2 ⟨v, by simpa using huv⟩)
        | cons d u2 =>
          rw [List.cons_append] at huv
          injection huv with h1 h2
          exact ⟨u2, v, h2⟩

theorem trimBy_decomp (f : Char → Bool) (w : List Char) :
    ∃ u v, u ++ trimBy f w ++ v = w := by
  refine ⟨w.takeWhile f, ((w.dropWhile f).reverse.takeWhile f).reverse, ?_⟩
  unfold trimBy
  have h2 := congrArg List.reverse
    (List.takeWhile_append_dropWhile f (w.dropWhile f).reverse)
  simp only [List.reverse_append, List.reverse_reverse] at h2
  calc w.takeWhile f ++ ((w.dropWhile f).reverse.dropWhile f).reverse ++
        ((w.dropWhile f).reverse.takeWhile f).reverse
      = w.takeWhile f ++ (((w.dropWhile f).reverse.dropWhile f).reverse ++
        ((w.dropWhile f).reverse.takeWhile f).reverse) := by
        rw [List.append_assoc]
    _ = w.takeWhile f ++ w.dropWhile f := by rw [h2]
    _ = w := List.takeWhile_append_dropWhile f w

theorem fieldsGo_decomp :
    ∀ (fuel : Nat) (s w : List Char), w ∈ fieldsGo fuel s → ∃ u v, u ++ w ++ v = s := by
  intro fuel
  induction fuel with
  | zero => intro s w hw; simp [fieldsGo] at hw
  | succ n ih =>
    intro s w hw
    cases s with
    | nil => simp [fieldsGo] at hw
    | cons c rest =>
      by_cases hc : goIsSpace c = true
      · rw [show fieldsGo (n + 1) (c :: rest) = fieldsGo n rest by
          simp [fieldsGo, hc]] at hw
        obtain ⟨u, v, h⟩ := ih rest w hw
        exact ⟨c :: u, v, by simp [h]⟩
      · rw [show fieldsGo (n + 1) (c :: rest) =
            (c :: rest.takeWhile (fun x => !goIsSpace x)) ::
              fieldsGo n (rest.dropWhile (fun x => !goIsSpace x)) by
          simp [fieldsGo, hc]] at hw
        rcases List.mem_cons.1 hw with h | h
        · subst h
          exact ⟨[], rest.dropWhile (fun x => !goIsSpace x), by
            simp [List.takeWhile_append_dropWhile]⟩
        · obtain ⟨u, v, h2⟩ := ih _ w h
          refine ⟨c :: (rest.takeWhile (fun x => !goIsSpace x) ++ u), v, ?_⟩
          simp only [List.cons_append, List.append_assoc, h2, List.cons.injEq, true_and]
          exact List.takeWhile_append_dropWhile _ rest

theorem fuzzyWordLoop_none_of (p tl : List Char) :
    ∀ (ws : List (List Char)), containsStr tl p = false →
      (∀ w ∈ ws, ∃ u v, u ++ w ++ v = tl) → ∀ i, fuzzyWordLoop p i ws = none := by
  intro ws hc
  induction ws with
  | nil => intro _ _; rfl
  | cons w ws ih =>
    intro hws i
    obtain ⟨u, v, huv⟩ := hws w (List.mem_cons_self w ws)
    obtain ⟨a, b, hab⟩ := trimBy_decomp inCutset w
    have h1 : p.isPrefixOf (cleanWord w) = false := by
      by_contra h
      rw [Bool.not_eq_false] at h
      obtain ⟨t, ht⟩ := (isPrefixOf_eq_true_iff p (cleanWord w)).1 h
      have : containsStr tl p = true := by
        refine (containsStr_iff tl p).2 ⟨u ++ a, t ++ (b ++ v), ?_⟩
        rw [← huv, ← hab]
        unfold cleanWord at ht
        rw [← ht]
        simp [List.append_assoc]
      simp [this] at hc
    have h2 : containsStr (cleanWord w) p = false := by
      by_contra h
      rw [Bool.not_eq_false] at h
      obtain ⟨x, y, hxy⟩ := (containsStr_iff (cleanWord w) p).1 h
      have : containsStr tl p = true := by
        refine (containsStr_iff tl p).2 ⟨u ++ (a ++ x), y ++ (b ++ v), ?_⟩
        rw [← huv, ← hab]
        unfold cleanWord at hxy
        rw [← hxy]
        simp [List.append_assoc]
      simp [this] at hc
    rw [show fuzzyWordLoop p i (w :: ws) = fuzzyWordLoop p (i + 1) ws by
      simp [fuzzyWordLoop, h1, h2]]
    exact ih (fun x hx => hws x (List.mem_cons_of_mem _ hx)) (i + 1)

theorem fuzzyWordLoop_fields_none (p tl : List Char)
    (h : containsStr tl p = false) (i : Nat) : fuzzyWordLoop p i (fields tl) = none :=
  fuzzyWordLoop_none_of p tl (fields tl) h
    (fun w hw => fieldsGo_decomp tl.length tl w hw) i

theorem wordTierOnly_false (t p : List Char) : wordTierOnlyMatched t p = false := by
  unfold wordTierOnlyMatched
  by_cases hc : containsStr (toLowerStr t) (toLowerStr p) = true
  · simp [hc]
  · rw [Bool.not_eq_true] at hc
    rw [fuzzyWordLoop_fields_none (toLowerStr p) (toLowerStr t) hc 0]
    simp

theorem fuzzy_matched_eq (t p : List Char) (hp : p ≠ []) :
    (fuzzyMatchAndScore t p).1 = containsStr (toLowerStr t) (toLowerStr p) := by
  cases hidx : idxOf (toLowerStr t) (toLowerStr p) with
  | some i =>
    simp only [fuzzyMatchAndScore, if_neg hp, hidx]
    simp [containsStr, hidx]
  | none =>
    have hc : containsStr (toLowerStr t) (toLowerStr p) = false := by
      simp [containsStr, hidx]
    have hw := fuzzyWordLoop_fields_none (toLowerStr p) (toLowerStr t) hc 0
    simp only [fuzzyMatchAndScore, if_neg hp, hidx, hw]
    simp [hc]

theorem sortAndExtract_mem (v : Verse) (ms : List (Verse × Nat)) :
    v ∈ sortAndExtractVerses ms ↔ ∃ s, (v, s) ∈ ms := by
  unfold sortAndExtractVerses
  rw [List.mem_map]
  constructor
  · rintro ⟨q, hq, rfl⟩
    exact ⟨q.2, by simpa using ((List.perm_insertionSort _ ms).mem_iff).1 hq⟩
  · rintro ⟨s, hs⟩
    exact ⟨(v, s), ((List.perm_insertionSort _ ms).mem_iff).2 hs, rfl⟩

theorem versesOfChapter_map_verse (b : List Char) (c : Int) (chap : ChapterMap) :
    (versesOfChapter b c chap).map (fun v => v.verse) = sortMapKeysAsInts chap := by
  unfold versesOfChapter
  rw [List.map_map]
  generalize sortMapKeysAsInts chap = L
  induction L with
  | nil => rfl
  | cons x xs ih => simp only [List.map_cons, Function.comp_apply, ih]

theorem sortMapKeys_mem {α : Type} (m : List (List Char × α)) (n : Int) :
    n ∈ sortMapKeysAsInts m ↔ ∃ k t, (k, t) ∈ m ∧ goAtoi k = some n := by
  unfold sortMapKeysAsInts
  rw [(List.perm_insertionSort _ _).mem_iff, List.mem_filterMap]
  constructor
  · rintro ⟨⟨k, t⟩, hm, hk⟩
    exact ⟨k, t, hm, hk⟩
  · rintro ⟨k, t, hm, hk⟩
    exact ⟨(k, t), hm, hk⟩

theorem nodup_filter_single (L : List Int) (c : Int) (h : L.Nodup) :
    L.filter (fun x => x = c) = [] ∨ L.filter (fun x => x = c) = [c] := by
  induction L with
  | nil => left; rfl
  | cons a L ih =>
    rcases List.nodup_cons.1 h with ⟨ha, hL⟩
    by_cases hac : a = c
    · subst hac
      right
      rw [List.filter_cons_of_pos (by simp)]
      have hnil : L.filter (fun x => x = a) = [] := by
        rw [List.filter_eq_nil_iff]
        intro x hx
        simp only [decide_eq_true_eq]
        intro he
        exact ha (he ▸ hx)
      rw [hnil]
    · rw [List.filter_cons_of_neg (by simpa using hac)]
      exact ih hL

theorem postingAux_bounds :
    ∀ (ts : List (List Char)) (tok : List Char) (i j : Nat),
      j ∈ postingAux tok i ts → i ≤ j ∧ j < i + ts.length := by
  intro ts
  induction ts with
  | nil => intro tok i j h; simp [postingAux] at h
  | cons t ts ih =>
    intro tok i j h
    simp only [postingAux, List.mem_append] at h
    rcases h with h | h
    · rw [List.mem_map] at h
      obtain ⟨x, _, rfl⟩ := h
      simp only [List.length_cons]
      omega
    · obtain ⟨h1, h2⟩ := ih tok (i + 1) j h
      simp only [List.length_cons]
      omega

theorem postingAux_sorted :
    ∀ (ts : List (List Char)) (tok : List Char) (i : Nat),
      List.Sorted (· ≤ ·) (postingAux tok i ts) := by
  intro ts
  induction ts with
  | nil => intro tok i; exact List.sorted_nil
  | cons t ts ih =>
    intro tok i
    rw [show postingAux tok i (t :: ts) =
        (((indexableTokens t).filter (fun w => w = tok)).map (fun _ => i)) ++
          postingAux tok (i + 1) ts from rfl]
    show List.Pairwise (· ≤ ·) _
    rw [List.pairwise_append]
    refine ⟨?_, ih tok (i + 1), ?_⟩
    · generalize (indexableTokens t).filter (fun w => w = tok) = l
      induction l with
      | nil => exact List.Pairwise.nil
      | cons x xs ih2 =>
        rw [List.map_cons]
        refine List.Pairwise.cons ?_ ih2
        intro y hy
        rw [List.mem_map] at hy
        obtain ⟨_, _, rfl⟩ := hy
        exact le_refl i
    · intro x hx y hy
      rw [List.mem_map] at hx
      obtain ⟨_, _, rfl⟩ := hx
      have := (postingAux_bounds ts tok (i + 1) y hy).1
      omega

/-! ## Claim theorems -/

/-- C1: evidence of the code bug. The claim says the candidate set produced
by intersecting the posting lists of the query's indexable tokens is the
same for every ordering of those tokens. On the corpus built from `c1doc`
(postings aaa → [0], bbb → [1], ccc → [0]) the token order
[aaa, bbb, ccc] yields the candidate slice [0] — after the empty
intersection of [0] and [1] leaves a nil slice, the next token resets the
candidates to its full posting list — while the order [aaa, ccc, bbb]
yields nil. The orderings of the same token set disagree. -/
theorem c1_intersection_order_dependent :
    getCandidateIndices (mkBD c1doc) [str "aaa", str "bbb", str "ccc"] = some [0] ∧
    getCandidateIndices (mkBD c1doc) [str "aaa", str "ccc", str "bbb"] = none := by
  constructor <;> rfl

/-- C2 counterexample: the claim says a case-insensitive exact match is
tried against the whole book list before any prefix match. On the book
list [Matthew, Mat] built from `c2doc`, the query Mat matches Mat exactly,
yet the source's `findBook` returns Matthew, because its single pass
accepts the earlier book Matthew by prefix before reaching Mat; the
spec-modelled two-phase matcher returns Mat. -/
theorem c2_counterexample :
    findBook (bookListOf c2doc) (str "Mat") = str "Matthew" ∧
    findBookSpecTwoPhase (bookListOf c2doc) (str "Mat") = str "Mat" ∧
    str "Matthew" ≠ str "Mat" := by
  refine ⟨by rfl, by rfl, by decide⟩

/-- C2 amended: fuzzy book matching makes one pass over the book list in
canonical order and returns the first book that case-insensitively equals
the query or has it as a case-insensitive prefix; an exact match later in
the list does not take priority over an earlier prefix match. -/
theorem c2_fuzzy_book_match_amended (pre : List (List Char)) (b : List Char)
    (post : List (List Char)) (q : List Char)
    (h1 : ∀ x ∈ pre, bookMatches q x = false) (h2 : bookMatches q b = true) :
    findBook (pre ++ b :: post) q = b := by
  unfold findBook
  unfold bookMatches at h1 h2
  induction pre with
  | nil =>
    rw [List.nil_append]
    simp only [findBookGo, h2, if_true]
  | cons x pre ih =>
    have hx := h1 x (List.mem_cons_self x pre)
    rw [List.cons_append]
    simp only [findBookGo, hx, Bool.false_eq_true, if_false]
    exact ih (fun y hy => h1 y (List.mem_cons_of_mem _ hy))

/-- C2 witness for the amended theorem: with book list [Genesis, Matthew],
the query mat skips Genesis (no match) and resolves to Matthew. -/
theorem c2_amended_witness :
    findBook ([str "Genesis"] ++ str "Matthew" :: []) (str "mat") = str "Matthew" :=
  c2_fuzzy_book_match_amended [str "Genesis"] (str "Matthew") [] (str "mat")
    (by decide) (by decide)

/-- C3: for every query, a verse matched by the case-insensitive
whole-pattern substring rule scores at or below (numerically ≤) any verse
matched only by the word-prefix or word-contains rule. This holds, but
vacuously: `wordTierOnly_false` shows no verse can ever be matched only by
the word tiers, because a cleaned word of the text that has the pattern as
a prefix or contains it is itself a contiguous substring of the lowercased
text, so the substring rule has already fired. -/
theorem c3_substring_tier_ranks_first :
    ∀ (p t1 t2 : List Char),
      substringTierMatched t1 p = false ∨ wordTierOnlyMatched t2 p = false ∨
        (fuzzyMatchAndScore t1 p).2 ≤ (fuzzyMatchAndScore t2 p).2 :=
  fun p _ t2 => Or.inr (Or.inl (wordTierOnly_false t2 p))

/-- C4 counterexample: the claim says the empty pattern yields the best
possible score (the minimum over all scores the function can return). In
fact the empty pattern scores 1000000 — the `noMatchScore` sentinel —
while matching abc against abc scores 0, strictly better, so the
empty-pattern score is not the minimum and an empty-pattern match is
ranked last, not first. -/
theorem c4_counterexample :
    (fuzzyMatchAndScore (str "abc") []).1 = true ∧
    (fuzzyMatchAndScore (str "abc") []).2 = noMatchScore ∧
    (fuzzyMatchAndScore (str "abc") (str "abc")).2 <
      (fuzzyMatchAndScore (str "abc") []).2 := by
  refine ⟨rfl, rfl, by decide⟩

/-- C4 amended: the empty pattern always matches, but with the score
1000000 — the same value as the no-match sentinel `noMatchScore`, the
worst score — so an empty-pattern match ranks after every match that
scores below the sentinel, not unconditionally first. -/
theorem c4_empty_pattern_amended :
    ∀ t : List Char, fuzzyMatchAndScore t [] = (true, noMatchScore) :=
  fun _ => rfl

/-- C8 counterexample: the claim says every posting list is sorted
strictly ascending. In the corpus built from `c8doc`, whose only verse
text is abc abc, the token abc is appended once per occurrence, so its
posting list is [0, 0] — sorted, but not strictly. -/
theorem c8_counterexample :
    bdIndex (mkBD c8doc) (str "abc") = [0, 0] ∧
    ¬ List.Sorted (· < ·) ([0, 0] : List Nat) := by
  refine ⟨by rfl, by decide⟩

/-- C8 amended: for every constructed corpus and token, the posting list
is sorted ascending (non-strictly: a verse that repeats a token repeats
its position), and every listed position is a valid index of the flat
verse sequence. -/
theorem c8_posting_sorted_amended :
    ∀ (bible : Bible) (tok : List Char),
      List.Sorted (· ≤ ·) (bdIndex (mkBD bible) tok) ∧
      ∀ i ∈ bdIndex (mkBD bible) tok, i < (mkBD bible).verses.length := by
  intro bible tok
  constructor
  · exact postingAux_sorted _ tok 0
  · intro i hi
    rw [show bdIndex (mkBD bible) tok =
        postingAux tok 0 ((mkBD bible).verses.map (fun v => v.text)) from rfl] at hi
    have h := (postingAux_bounds ((mkBD bible).verses.map (fun v => v.text))
      tok 0 i hi).2
    rw [List.length_map] at h
    omega

/-- C9: search on the empty query returns an empty sequence immediately,
and a query on which every strategy produces an empty result returns the
empty sequence — the embedding is a total function into verse lists, so
search has no caller-visible failure mode beyond zero results. -/
theorem c9_search_error_free :
    ∀ (bd : BD) (q : List Char),
      (q = [] → Search bd q = []) ∧
      (searchByReference bd q = [] → bookScopedPhase bd q = [] →
        indexedPhase bd q = [] → Search bd q = []) := by
  intro bd q
  constructor
  · intro hq
    simp [Search, hq]
  · intro h1 h2 h3
    by_cases hq : q = []
    · simp [Search, hq]
    · simp [Search, hq, h1, h2, h3]

/-- C5: evidence of the code bug. The claim says corpus construction is
deterministic: the same document always yields the same verse sequence and
book-order list. The unrecognized-books loop ranges over the parsed Go
map, whose iteration order is randomized per run; modelling that order as
the association-list order, the two presentations `c5doc1` and `c5doc2` of
the one document (they are permutations of each other, hence the same map)
yield different book lists and different verse sequences. -/
theorem c5_construction_order_dependent :
    List.Perm c5doc1 c5doc2 ∧
    bookListOf c5doc1 ≠ bookListOf c5doc2 ∧
    allVerses c5doc1 ≠ allVerses c5doc2 := by
  refine ⟨?_, by decide, by decide⟩
  exact List.Perm.swap _ _ _

/-- C6 counterexample: the claim says a chapter or verse key is included
iff it parses as a non-negative integer, and that any key that does not is
skipped with its verses absent. The chapter key -1 parses (Go Atoi accepts
a sign) to the negative integer -1, and its verse is present in the
constructed corpus with chapter number -1 — not skipped. -/
theorem c6_counterexample :
    goAtoi (str "-1") = some (-1) ∧
    allVerses c6doc = [⟨str "Genesis", -1, 1, str "dark"⟩] := by
  refine ⟨by decide, by rfl⟩

/-- C6 amended: a chapter or verse key is included iff it parses under Go
`strconv.Atoi` as an integer — sign allowed, so negative keys are included
too — and every key that fails integer parsing is silently skipped without
failing the parse; the verse numbers emitted for a chapter are exactly the
parsed key values, sorted. (The content attached to a parsed value is
re-read under its canonical decimal rendering, so a non-canonical key such
as 007 contributes the canonical key's content.) -/
theorem c6_key_filter_amended :
    ∀ (m : ChapterMap) (b : List Char) (c n : Int),
      (n ∈ sortMapKeysAsInts m ↔ ∃ k t, (k, t) ∈ m ∧ goAtoi k = some n) ∧
      (versesOfChapter b c m).map (fun v => v.verse) = sortMapKeysAsInts m :=
  fun m b c n => ⟨sortMapKeys_mem m n, versesOfChapter_map_verse b c m⟩

/-- C7 counterexample: the claim says `GetVerses` returns every present
chapter's verses sorted ascending by verse number. In the document
`c7doc` the chapter keys 1 and 01 both parse to 1, so chapter 1 is
processed twice and `GetVerses` returns verse numbers [1, 2, 1, 2] — not
sorted. -/
theorem c7_counterexample :
    (GetVerses c7doc (str "Genesis") 1).map (fun v => v.verse) = [1, 2, 1, 2] ∧
    ¬ List.Sorted (· ≤ ·) ([1, 2, 1, 2] : List Int) := by
  refine ⟨by rfl, by decide⟩

/-- C7 amended: provided no two chapter keys of the requested book parse
to the same integer (canonical decimal keys in particular), `GetVerses`
returns verses sorted ascending by verse number; for any absent
(book, chapter) pair — a book absent from the source, or a chapter number
absent from a present book's parsed chapter keys — it returns the empty
sequence, under exact string match on the book name. -/
theorem c7_sorted_verses_amended (bible : Bible) (b : List Char) (c : Int)
    (h : (((alookup bible b).getD []).filterMap (fun p => goAtoi p.1)).Nodup) :
    List.Sorted (· ≤ ·) ((GetVerses bible b c).map (fun v => v.verse)) ∧
    (alookup bible b = none → GetVerses bible b c = []) ∧
    (∀ bm, alookup bible b = some bm → c ∉ sortMapKeysAsInts bm →
      GetVerses bible b c = []) := by
  cases hb : alookup bible b with
  | none =>
    refine ⟨?_, fun _ => by simp [GetVerses, hb], fun bm hbm => by simp at hbm⟩
    simp only [GetVerses, hb, List.map_nil]
    exact List.sorted_nil
  | some bm =>
    have habsent : ∀ bm2, some bm = some bm2 → c ∉ sortMapKeysAsInts bm2 →
        GetVerses bible b c = [] := by
      rintro bm2 hbm hc
      obtain rfl : bm = bm2 := Option.some.inj hbm
      have hf : (sortMapKeysAsInts bm).filter (fun x => x = c) = [] := by
        rw [List.filter_eq_nil_iff]
        intro x hx
        simp only [decide_eq_true_eq]
        intro he
        exact hc (he ▸ hx)
      simp [GetVerses, hb, hf]
    refine ⟨?_, fun hcon => by simp at hcon, habsent⟩
    rw [hb] at h
    simp only [Option.getD_some] at h
    have hnd : (sortMapKeysAsInts bm).Nodup :=
      ((List.perm_insertionSort _ _).nodup_iff).2 h
    rcases nodup_filter_single (sortMapKeysAsInts bm) c hnd with hf | hf
    · simp only [GetVerses, hb, hf, List.flatMap_nil, List.map_nil]
      exact List.sorted_nil
    · simp only [GetVerses, hb, hf, List.flatMap_cons, List.flatMap_nil,
        List.append_nil]
      rw [versesOfChapter_map_verse]
      exact List.sorted_insertionSort _ _

/-- C7 witness for the amended theorem: on the canonical-key document
`c7cleandoc`, `GetVerses` for Genesis 1 is sorted, and the absent chapter
Genesis 5 yields the empty sequence. -/
theorem c7_amended_witness :
    List.Sorted (· ≤ ·)
      ((GetVerses c7cleandoc (str "Genesis") 1).map (fun v => v.verse)) ∧
    GetVerses c7cleandoc (str "Genesis") 5 = [] :=
  ⟨(c7_sorted_verses_amended c7cleandoc (str "Genesis") 1 (by decide)).1,
   (c7_sorted_verses_amended c7cleandoc (str "Genesis") 5 (by decide)).2.2
     [(str "1", c7ch)] (by rfl) (by decide)⟩

/-- C10 counterexample: the claim says the indexed strategy returns
exactly those verses in which the whole query occurs as a case-insensitive
contiguous substring. On the corpus built from `c10doc` and the query
foo bar, the candidate set is [0] (verse 1 has both tokens), and `Search`
resolves via the indexed strategy to verse 1 only — while verse 2,
xfoo bar here, contains foo bar as a substring but lacks the token foo, so
it is omitted. -/
theorem c10_counterexample :
    (str "foo bar").any goIsSpace = true ∧
    containsStr (toLowerStr (str "xfoo bar here")) (toLowerStr (str "foo bar")) = true ∧
    getCandidateIndices (mkBD c10doc) (fields (toLowerStr (str "foo bar"))) = some [0] ∧
    Search (mkBD c10doc) (str "foo bar") =
      [⟨str "Genesis", 1, 1, str "foo bar here"⟩] := by
  refine ⟨by decide, by decide, by rfl, by rfl⟩

/-- C10 amended: for every query containing whitespace (as for any
nonempty query), the fuzzy match succeeds on a verse iff its lowercased
text contains the lowercased query as a contiguous substring; the full
scan returns exactly the substring-containing verses of the corpus, while
the candidate scorer returns exactly the substring-containing verses among
the supplied candidate positions — a subset that can omit
substring-containing verses missing one of the query's tokens as an
indexed token. -/
theorem c10_whitespace_query_amended (q : List Char)
    (h : q.any goIsSpace = true) (bd : BD) :
    (∀ t, (fuzzyMatchAndScore t q).1 = containsStr (toLowerStr t) (toLowerStr q)) ∧
    (∀ v, v ∈ fullTextSearch bd q ↔
      v ∈ bd.verses ∧ containsStr (toLowerStr v.text) (toLowerStr q) = true) ∧
    (∀ (cands : List Nat) (v : Verse), v ∈ scoreAndSortCandidates bd cands q ↔
      ∃ i, i ∈ cands ∧ bd.verses.getD i defaultVerse = v ∧
        containsStr (toLowerStr v.text) (toLowerStr q) = true) := by
  have hq : q ≠ [] := by
    intro hq
    rw [hq] at h
    simp at h
  refine ⟨fun t => fuzzy_matched_eq t q hq, ?_, ?_⟩
  · intro v
    unfold fullTextSearch
    rw [sortAndExtract_mem]
    constructor
    · rintro ⟨s, hs⟩
      rw [List.mem_filterMap] at hs
      obtain ⟨w, hw, hfw⟩ := hs
      simp only at hfw
      by_cases hm : (fuzzyMatchAndScore w.text q).1 = true
      · rw [if_pos hm] at hfw
        obtain ⟨rfl, -⟩ := Prod.mk.injEq .. ▸ Option.some.inj hfw
        refine ⟨hw, ?_⟩
        rw [← fuzzy_matched_eq w.text q hq]
        exact hm
      · rw [if_neg hm] at hfw
        cases hfw
    · rintro ⟨hv, hcont⟩
      have hm : (fuzzyMatchAndScore v.text q).1 = true := by
        rw [fuzzy_matched_eq v.text q hq]
        exact hcont
      refine ⟨(fuzzyMatchAndScore v.text q).2, ?_⟩
      rw [List.mem_filterMap]
      exact ⟨v, hv, by simp only [hm, if_pos]⟩
  · intro cands v
    unfold scoreAndSortCandidates
    rw [sortAndExtract_mem]
    constructor
    · rintro ⟨s, hs⟩
      rw [List.mem_filterMap] at hs
      obtain ⟨i, hi, hfi⟩ := hs
      simp only at hfi
      by_cases hm : (fuzzyMatchAndScore (bd.verses.getD i defaultVerse).text q).1 = true
      · rw [if_pos hm] at hfi
        obtain ⟨rfl, -⟩ := Prod.mk.injEq .. ▸ Option.some.inj hfi
        refine ⟨i, hi, rfl, ?_⟩
        rw [← fuzzy_matched_eq (bd.verses.getD i defaultVerse).text q hq]
        exact hm
      · rw [if_neg hm] at hfi
        cases hfi
    · rintro ⟨i, hi, rfl, hcont⟩
      have hm : (fuzzyMatchAndScore (bd.verses.getD i defaultVerse).text q).1 = true := by
        rw [fuzzy_matched_eq _ q hq]
        exact hcont
      refine ⟨(fuzzyMatchAndScore (bd.verses.getD i defaultVerse).text q).2, ?_⟩
      rw [List.mem_filterMap]
      exact ⟨i, hi, by simp only [hm, if_pos]⟩

/-- C10 witness for the amended theorem: for the whitespace query foo bar
the fuzzy match on xfoo bar here is exactly substring containment. -/
theorem c10_amended_witness :
    (fuzzyMatchAndScore (str "xfoo bar here") (str "foo bar")).1 =
      containsStr (toLowerStr (str "xfoo bar here")) (toLowerStr (str "foo bar")) :=
  (c10_whitespace_query_amended (str "foo bar") (by decide) (mkBD c10doc)).1
    (str "xfoo bar here")
